import Mathlib

/-!
Verification of the scheduling core of the futures-concurrency combinator
library, embedded shallowly from the source:

* the first-success engine over arrays (`src/first_ok/array.rs`,
  `FirstOk::poll`);
* the join engine over tuples (`src/future/join/tuple.rs`, `maybe_poll!`
  and the generated `Future::poll`);
* the stream driver (`src/concurrent_stream/into_concurrent_iterator.rs`,
  `FromStream::drive`).

An operation (a future handed to an engine) is modelled by the drive step
at which it becomes ready together with the value it then produces:
probing it at drive step `t` yields the value iff `readyAt ≤ t`.  Engines
are driven at steps `0, 1, 2, …` by the external scheduler.
-/

namespace FuturesConcurrency

/-- An operation: becomes ready at drive step `readyAt`, producing `val`.
Probing at step `t` returns the value iff `readyAt ≤ t`. -/
structure Op (α : Type) where
  readyAt : Nat
  val : α
deriving DecidableEq

/-- One non-blocking probe of an operation at drive step `t`. -/
def Op.poll (o : Op α) (t : Nat) : Option α :=
  if o.readyAt ≤ t then some o.val else none

/-- Modelled from the spec: `MaybeDone` lives in `src/utils/poll_state.rs`,
which is declared by `utils/mod.rs` but not part of the sources; per the
slot-state description a slot is pending (still holds the operation), done
(result computed, not yet moved out) or gone (result moved out, storage
inert). -/
inductive MaybeDone (α : Type) where
  | future (op : Op α)
  | done (val : α)
  | gone
deriving DecidableEq

/-- Modelled from the spec: polling a `MaybeDone` probes the inner
operation only while it is still pending; once done, polling reports
readiness without touching the operation again.  Returns the updated slot
and whether the poll reported readiness.  (`gone` is never polled in any
engine run.) -/
def MaybeDone.poll (t : Nat) : MaybeDone α → MaybeDone α × Bool
  | .future op =>
    match op.poll t with
    | some v => (.done v, true)
    | none => (.future op, false)
  | .done v => (.done v, true)
  | .gone => (.gone, true)

/-- Modelled from the spec: `output` exposes the stored result while the
slot is done. -/
def MaybeDone.output : MaybeDone α → Option α
  | .done v => some v
  | _ => none

/-- Whether the slot still holds its (unfinished) operation. -/
def MaybeDone.isFuture : MaybeDone α → Bool
  | .future _ => true
  | _ => false

/-- The error observed when polling this slot at step `t`: `some e` iff the
poll reports readiness and the stored result is an `Err`. -/
def MaybeDone.errAt (t : Nat) (m : MaybeDone (Except ε α)) : Option ε :=
  match ((m.poll t).1).output with
  | some (.error e) => some e
  | _ => none

/-- The result of one drive step of the first-ok engine: the
`Poll<Result<[T; N], E>>` returned by `FirstOk::poll` (the all-done branch
assembles the array of every success value). -/
inductive FirstOkPoll (α ε : Type) where
  | pending
  | ok (vals : List α)
  | err (e : ε)
deriving DecidableEq

/-- Whether a drive-step result is still pending. -/
def FirstOkPoll.isPending : FirstOkPoll α ε → Bool
  | .pending => true
  | _ => false

/-- The element loop of `FirstOk::poll`: poll every element in index
order, tracking `all_done`; the first element whose poll is ready with an
`Err` output is taken (its slot becomes gone) and the loop returns at
once, leaving the elements after it untouched.  Returns the updated
elements, the `all_done` flag and the early error, if any. -/
def firstOkScan (t : Nat) :
    List (MaybeDone (Except ε α)) →
      List (MaybeDone (Except ε α)) × Bool × Option ε
  | [] => ([], true, none)
  | m :: rest =>
    let p := m.poll t
    if p.2 then
      match (p.1).output with
      | some (.error e) => (.gone :: rest, true, some e)
      | _ =>
        let r := firstOkScan t rest
        (p.1 :: r.1, r.2.1, r.2.2)
    else
      let r := firstOkScan t rest
      (p.1 :: r.1, false, r.2.2)

/-- Extract the success value of a done slot, if any. -/
def MaybeDone.okValue (m : MaybeDone (Except ε α)) : Option α :=
  match m.output with
  | some (.ok v) => some v
  | _ => none

/-- One drive step of the first-ok engine (`FirstOk::poll`): scan all
elements; an observed failure is returned immediately; otherwise, once
every element is done, all success values are moved out in input order. -/
def firstOkStep (t : Nat) (elems : List (MaybeDone (Except ε α))) :
    FirstOkPoll α ε × List (MaybeDone (Except ε α)) :=
  let s := firstOkScan t elems
  match s.2.2 with
  | some e => (.err e, s.1)
  | none =>
    if s.2.1 then
      (.ok (s.1.filterMap MaybeDone.okValue), s.1.map fun _ => .gone)
    else
      (.pending, s.1)

/-- The first-ok engine's element state after `t` drive steps (steps run
at times `0, …, t-1`).  The state freezes once a step has returned a final
result: a completed engine is not polled again. -/
def firstOkElems (elems : List (MaybeDone (Except ε α))) :
    Nat → List (MaybeDone (Except ε α))
  | 0 => elems
  | t + 1 =>
    let cur := firstOkElems elems t
    let s := firstOkStep t cur
    if (s.1).isPending then s.2 else cur

/-- The result the first-ok engine reports at drive step `t`. -/
def firstOkResultAt (elems : List (MaybeDone (Except ε α))) (t : Nat) :
    FirstOkPoll α ε :=
  (firstOkStep t (firstOkElems elems t)).1

/-- The first error observed when polling the elements in index order at
step `t` (what the scan loop returns early with). -/
def firstOkFirstErr (t : Nat) :
    List (MaybeDone (Except ε α)) → Option ε
  | [] => none
  | m :: rest =>
    match m.errAt t with
    | some e => some e
    | none => firstOkFirstErr t rest

/-- Which elements have their operation probed during one execution of the
element loop of `FirstOk::poll` at step `t`: an element is probed iff the
loop reaches it while it still holds its operation; the elements after an
early `Err` return are not reached. -/
def firstOkProbes (t : Nat) :
    List (MaybeDone (Except ε α)) → List Bool
  | [] => []
  | m :: rest =>
    let p := m.poll t
    if p.2 then
      match (p.1).output with
      | some (.error _) => m.isFuture :: rest.map fun _ => false
      | _ => m.isFuture :: firstOkProbes t rest
    else
      m.isFuture :: firstOkProbes t rest

/-- Whether the first-ok engine has returned a final result at some step
before `t`. -/
def firstOkDoneBefore (elems : List (MaybeDone (Except ε α))) :
    Nat → Bool
  | 0 => false
  | t + 1 =>
    firstOkDoneBefore elems t || !(firstOkResultAt elems t).isPending

/-- Which elements have their operation probed at drive step `t` of a run:
none once the engine has already returned (a completed engine is not
polled again), and otherwise those the element loop probes. -/
def firstOkProbesAt (elems : List (MaybeDone (Except ε α))) (t : Nat) :
    List Bool :=
  if firstOkDoneBefore elems t then
    (firstOkElems elems t).map fun _ => false
  else
    firstOkProbes t (firstOkElems elems t)

/-- An all-success input: operation `i` becomes ready at step `rs[i].1`
with success value `rs[i].2`. -/
def okInit (rs : List (Nat × α)) : List (MaybeDone (Except ε α)) :=
  rs.map fun p => .future ⟨p.1, .ok p.2⟩

/-- The pointwise state of an all-success input once steps `0, …, s-1`
have run: operations ready before `s` are done, the rest untouched. -/
def okStateAt (rs : List (Nat × α)) (s : Nat) :
    List (MaybeDone (Except ε α)) :=
  rs.map fun p =>
    if p.1 < s then .done (.ok p.2) else .future ⟨p.1, .ok p.2⟩

/-- The drive step at which the last of the operations becomes ready. -/
def maxReady (rs : List (Nat × α)) : Nat :=
  rs.foldr (fun p m => max p.1 m) 0

/-- Modelled from the spec: `PollState` lives in `src/utils/poll_state.rs`,
which is declared by `utils/mod.rs` but not part of the sources; the slot
states are named `Pending`, `Ready` and `Consumed`. -/
inductive PollState where
  | pending
  | ready
  | consumed
deriving DecidableEq

/-- Modelled from the spec: `PollState::is_pending`. -/
def PollState.isPending : PollState → Bool
  | .pending => true
  | _ => false

/-- Modelled from the spec: `PollState::set_consumed`. -/
def PollState.setConsumed (_ : PollState) : PollState :=
  .consumed

/-- One slot of the join engine: the operation, its `PollState` entry and
its output storage (`MaybeUninit`, modelled as `Option`: `none` is
uninitialized). -/
structure JoinSlot (α : Type) where
  op : Op α
  state : PollState
  output : Option α
deriving DecidableEq

/-- `maybe_poll!` from `future/join/tuple.rs`: if the slot is pending,
probe its operation once at step `t`; on readiness write the output, mark
the slot consumed and report that `len` is to be decremented. -/
def maybePoll (t : Nat) (s : JoinSlot α) : JoinSlot α × Bool :=
  if s.state.isPending then
    match s.op.poll t with
    | some v => ({ s with state := s.state.setConsumed, output := some v }, true)
    | none => (s, false)
  else
    (s, false)

/-- The join engine's state: the `len` counter and the slots. -/
structure JoinState (α : Type) where
  len : Nat
  slots : List (JoinSlot α)
deriving DecidableEq

/-- The result of one drive step of the join engine.  The done branch is
the source's unchecked read of the whole output tuple, so it carries the
raw output storage (`none` entries would be reads of uninitialized
memory). -/
inductive JoinPoll (β : Type) where
  | pending
  | done (out : β)
deriving DecidableEq

/-- `Join::join`: all slots pending, outputs uninitialized, `len = N`. -/
def joinInit (ops : List (Op α)) : JoinState α :=
  ⟨ops.length, ops.map fun o => ⟨o, .pending, none⟩⟩

/-- One drive step of the join engine (the generated `Future::poll`):
`maybe_poll` every slot in index order, decrement `len` once per newly
consumed slot, and when `len` reaches `0` read the whole output storage as
the final aggregate. -/
def joinStep (t : Nat) (st : JoinState α) :
    JoinPoll (List (Option α)) × JoinState α :=
  let slots := st.slots.map fun s => (maybePoll t s).1
  let dec := st.slots.countP fun s => (maybePoll t s).2
  let len := st.len - dec
  if len = 0 then
    (.done (slots.map JoinSlot.output), ⟨len, slots⟩)
  else
    (.pending, ⟨len, slots⟩)

/-- The join engine's state after `t` drive steps (steps run at times
`0, …, t-1`). -/
def joinRun (ops : List (Op α)) : Nat → JoinState α
  | 0 => joinInit ops
  | t + 1 => (joinStep t (joinRun ops t)).2

/-- The result the join engine reports at drive step `t`. -/
def joinResultAt (ops : List (Op α)) (t : Nat) :
    JoinPoll (List (Option α)) :=
  (joinStep t (joinRun ops t)).1

/-- Which slots have their operation probed at drive step `t` of a join
run: exactly the slots whose state is still pending when the step starts
(`maybe_poll`'s guard). -/
def joinProbesAt (ops : List (Op α)) (t : Nat) : List Bool :=
  (joinRun ops t).slots.map fun s => s.state.isPending

/-- One consumer-visible event of a `FromStream::drive` run: the consumer
made internal progress, received one item, or was asked to finish. -/
inductive DriveEvent (α : Type) where
  | progress
  | send (item : α)
  | finish
deriving DecidableEq

/-- The item carried by a send event, if any. -/
def DriveEvent.sent : DriveEvent α → Option α
  | .send x => some x
  | _ => none

/-- Modelled from the spec (the `race` combinator used by
`FromStream::drive` is not among the sources): `FromStream::drive` with
the per-round race between `iter.next()` and `consumer.progress()`
resolved by an oracle of scheduler decisions (`true`: the progress side
wins the round).  The consumer is generic: `prog` is its internal
progress, `send` its item admission (an unbounded consumer always
admits), `fin` its final aggregation.  Returns `none` when the oracle (the
scheduler's budget of rounds) runs out before the source is exhausted,
together with the trace of consumer events. -/
def drive (prog : σ → σ) (send : σ → α → σ) (fin : σ → β) :
    List Bool → List α → σ → Option β × List (DriveEvent α)
  | [], _, _ => (none, [])
  | d :: ds, items, s =>
    if d then
      let r := drive prog send fin ds items (prog s)
      (r.1, .progress :: r.2)
    else
      match items with
      | [] => (some (fin s), [.finish])
      | x :: xs =>
        let r := drive prog send fin ds xs (send s x)
        (r.1, .send x :: r.2)

/-- The spec's unbounded consumer: it records every admitted item (in
order), internal progress does not change what has been admitted, and its
cumulative output is an arbitrary aggregation `f` of the admitted items. -/
def driveFold (f : List α → β) (ds : List Bool) (items : List α) :
    Option β × List (DriveEvent α) :=
  drive id (fun s x => s ++ [x]) f ds items []

/-! ### Lemmas about the join engine -/

/-- The slot an operation's join slot has reached once steps
`0, …, t-1` have run. -/
def joinSlotAt (t : Nat) (o : Op α) : JoinSlot α :=
  if o.readyAt < t then ⟨o, .consumed, some o.val⟩ else ⟨o, .pending, none⟩

theorem joinStep_snd (t : Nat) (st : JoinState α) :
    (joinStep t st).2 =
      ⟨st.len - st.slots.countP fun s => (maybePoll t s).2,
       st.slots.map fun s => (maybePoll t s).1⟩ := by
  simp only [joinStep]
  split <;> rfl

theorem joinStep_fst (t : Nat) (st : JoinState α) :
    (joinStep t st).1 =
      if st.len - (st.slots.countP fun s => (maybePoll t s).2) = 0 then
        .done ((st.slots.map fun s => (maybePoll t s).1).map JoinSlot.output)
      else
        .pending := by
  simp only [joinStep]
  split <;> rfl

theorem maybePoll_joinSlotAt (t : Nat) (o : Op α) :
    maybePoll t (joinSlotAt t o) =
      (joinSlotAt (t + 1) o, decide (o.readyAt = t)) := by
  unfold joinSlotAt maybePoll PollState.isPending PollState.setConsumed Op.poll
  rcases Nat.lt_trichotomy o.readyAt t with h | h | h
  · simp [h, Nat.lt_succ_of_lt h, Nat.ne_of_lt h]
  · subst h
    simp [Nat.lt_irrefl, Nat.lt_succ_self]
  · simp [Nat.lt_asymm h, Nat.not_le.mpr h, Nat.not_lt.mpr h,
      Nat.ne_of_gt h]

theorem countP_ready_split (l : List (Op α)) (t : Nat) :
    (l.countP fun o => decide (t ≤ o.readyAt)) =
      (l.countP fun o => decide (o.readyAt = t)) +
        l.countP fun o => decide (t + 1 ≤ o.readyAt) := by
  induction l with
  | nil => simp
  | cons o l ih =>
    simp only [List.countP_cons, ih]
    by_cases h1 : t ≤ o.readyAt <;> by_cases h2 : o.readyAt = t <;>
      by_cases h3 : t + 1 ≤ o.readyAt <;> simp [h1, h2, h3] <;> omega

/-- The join engine's state after `t` steps: `len` counts the operations
not yet ready, and each slot is consumed with its value stored iff its
operation became ready before `t`. -/
theorem countP_maybePoll_map (ops : List (Op α)) (t : Nat) :
    ((ops.map (joinSlotAt t)).countP fun s => (maybePoll t s).2) =
      ops.countP fun o => decide (o.readyAt = t) := by
  rw [List.countP_map]
  apply List.countP_congr
  intro o _
  simp only [Function.comp_apply, maybePoll_joinSlotAt]

theorem map_maybePoll_map (ops : List (Op α)) (t : Nat) :
    ((ops.map (joinSlotAt t)).map fun s => (maybePoll t s).1) =
      ops.map (joinSlotAt (t + 1)) := by
  rw [List.map_map]
  apply List.map_congr_left
  intro o _
  simp only [Function.comp_apply, maybePoll_joinSlotAt]

theorem countP_ready_sub (ops : List (Op α)) (t : Nat) :
    (ops.countP fun o => decide (t ≤ o.readyAt)) -
      (ops.countP fun o => decide (o.readyAt = t)) =
      ops.countP fun o => decide (t + 1 ≤ o.readyAt) := by
  rw [countP_ready_split (t := t)]
  omega

/-- The join engine's state after `t` steps: `len` counts the operations
not yet ready, and each slot is consumed with its value stored iff its
operation became ready before `t`. -/
theorem joinRun_eq (ops : List (Op α)) (t : Nat) :
    joinRun ops t =
      ⟨ops.countP fun o => decide (t ≤ o.readyAt),
       ops.map (joinSlotAt t)⟩ := by
  induction t with
  | zero =>
    show joinInit ops = _
    unfold joinInit
    have h1 : ops.length = ops.countP fun o => decide (0 ≤ o.readyAt) := by
      rw [Eq.comm, List.countP_eq_length]
      intro o _
      simp
    have h2 : (ops.map fun o => (⟨o, .pending, none⟩ : JoinSlot α)) =
        ops.map (joinSlotAt 0) := by
      apply List.map_congr_left
      intro o _
      simp [joinSlotAt]
    rw [← h1, h2]
  | succ t ih =>
    show (joinStep t (joinRun ops t)).2 = _
    rw [ih, joinStep_snd]
    simp only
    rw [countP_maybePoll_map, map_maybePoll_map, countP_ready_sub]

theorem joinResultAt_eq (ops : List (Op α)) (t : Nat) :
    joinResultAt ops t =
      if ∀ o ∈ ops, o.readyAt ≤ t then
        .done (ops.map fun o => some o.val)
      else
        .pending := by
  show (joinStep t (joinRun ops t)).1 = _
  rw [joinRun_eq, joinStep_fst]
  simp only
  rw [countP_maybePoll_map, map_maybePoll_map, countP_ready_sub]
  by_cases hall : ∀ o ∈ ops, o.readyAt ≤ t
  · have hz : (ops.countP fun o => decide (t + 1 ≤ o.readyAt)) = 0 := by
      rw [List.countP_eq_zero]
      intro o ho
      have := hall o ho
      simp only [decide_eq_true_eq]
      omega
    rw [if_pos hz, if_pos hall]
    congr 1
    rw [List.map_map]
    apply List.map_congr_left
    intro o ho
    have hlt : o.readyAt < t + 1 := Nat.lt_succ_of_le (hall o ho)
    simp [Function.comp_apply, joinSlotAt, hlt, JoinSlot.output]
  · have hz : (ops.countP fun o => decide (t + 1 ≤ o.readyAt)) ≠ 0 := by
      push_neg at hall
      rcases hall with ⟨o, ho, hlt⟩
      intro h0
      have h1 := List.countP_eq_zero.mp h0 o ho
      simp only [decide_eq_true_eq] at h1
      omega
    rw [if_neg hz, if_neg hall]

theorem joinRun_slots (ops : List (Op α)) (t : Nat) :
    (joinRun ops t).slots = ops.map (joinSlotAt t) := by
  rw [joinRun_eq]

theorem joinRun_slots_getElem? (ops : List (Op α)) (t i : Nat) :
    (joinRun ops t).slots[i]? = ops[i]?.map (joinSlotAt t) := by
  rw [joinRun_slots, List.getElem?_map]

/-- A slot consumed by step `t` is never probed at any later step:
`maybe_poll`'s guard only probes pending slots. -/
theorem join_consumed_not_reprobed (ops : List (Op α)) (t u i : Nat)
    (s : JoinSlot α) (hu : t ≤ u) (hs : (joinRun ops t).slots[i]? = some s)
    (hc : s.state = .consumed) : (joinProbesAt ops u)[i]? = some false := by
  rw [joinRun_slots_getElem?] at hs
  rcases ho : ops[i]? with _ | o
  · rw [ho] at hs
    exact absurd hs (by simp)
  · rw [ho, Option.map_some'] at hs
    have hso : s = joinSlotAt t o := (Option.some.injEq _ _).mp hs.symm
    have hrt : o.readyAt < t := by
      by_contra hge
      rw [hso] at hc
      unfold joinSlotAt at hc
      rw [if_neg hge] at hc
      exact absurd hc (by simp)
    unfold joinProbesAt
    rw [joinRun_slots, List.map_map, List.getElem?_map, ho, Option.map_some']
    have : (joinSlotAt u o).state.isPending = false := by
      unfold joinSlotAt
      rw [if_pos (by omega)]
      rfl
    simp only [Function.comp_apply, this]

/-- C6: the join engine over the empty tuple completes on the first drive
step, returning the empty aggregate. -/
theorem join_empty_first_step :
    joinResultAt ([] : List (Op Unit)) 0 = .done [] := by
  rfl

/-- C3: for every collection of up to 12 operations and every completion
timing, the join engine reports done exactly when all operations have
completed, and the aggregate it returns holds every operation's result in
input order. -/
theorem join_output_input_order (ops : List (Op α)) (t : Nat)
    (out : List (Option α)) (hN : ops.length ≤ 12) :
    joinResultAt ops t = .done out ↔
      (∀ o ∈ ops, o.readyAt ≤ t) ∧ out = ops.map fun o => some o.val := by
  rw [joinResultAt_eq]
  by_cases hall : ∀ o ∈ ops, o.readyAt ≤ t
  · rw [if_pos hall]
    constructor
    · intro h
      exact ⟨hall, ((JoinPoll.done.injEq _ _).mp h).symm⟩
    · intro h
      rw [h.2]
  · rw [if_neg hall]
    constructor
    · intro h
      exact absurd h (by simp)
    · intro h
      exact absurd h.1 hall

/-- Witness for C3 at a concrete input: two operations completing out of
input order still produce the input-ordered aggregate. -/
theorem join_output_input_order_witness :
    joinResultAt [(⟨1, 10⟩ : Op Nat), ⟨0, 20⟩] 1 = .done [some 10, some 20] :=
  (join_output_input_order [⟨1, 10⟩, ⟨0, 20⟩] 1 [some 10, some 20]
    (by decide)).mpr ⟨by decide, by decide⟩

/-- C10: after every drive step `len` equals the number of slots still
pending; a slot's storage is initialized exactly when it is consumed;
when `len` reaches `0` every slot's storage holds its operation's value
(so the final unchecked read is of initialized storage only); and an
initialized slot never changes again (each slot is written once). -/
theorem join_len_counts_pending (ops : List (Op α)) (t u i : Nat)
    (hu : t ≤ u) :
    ((joinRun ops t).len =
      (joinRun ops t).slots.countP fun s => s.state.isPending) ∧
    (∀ s ∈ (joinRun ops t).slots,
      s.output.isSome = true ↔ s.state = .consumed) ∧
    ((joinRun ops t).len = 0 →
      ∀ s ∈ (joinRun ops t).slots, s.output = some s.op.val) ∧
    (∀ s s', (joinRun ops t).slots[i]? = some s →
      (joinRun ops u).slots[i]? = some s' →
      s.output.isSome = true → s' = s) := by
  refine ⟨?_, ?_, ?_, ?_⟩
  · rw [joinRun_eq]
    simp only [List.countP_map]
    rw [Eq.comm]
    apply List.countP_congr
    intro o _
    by_cases h : o.readyAt < t
    · have hle : ¬ t ≤ o.readyAt := by omega
      simp [Function.comp_apply, joinSlotAt, h, PollState.isPending, hle]
    · have hle : t ≤ o.readyAt := by omega
      simp [Function.comp_apply, joinSlotAt, h, PollState.isPending, hle]
  · rw [joinRun_slots]
    intro s hs
    rcases List.mem_map.mp hs with ⟨o, _, rfl⟩
    unfold joinSlotAt
    by_cases h : o.readyAt < t
    · simp [h]
    · simp [h]
  · rw [joinRun_eq]
    intro hlen s hs
    rcases List.mem_map.mp hs with ⟨o, ho, rfl⟩
    have hr : o.readyAt < t := by
      have h1 := List.countP_eq_zero.mp hlen o ho
      simp only [decide_eq_true_eq] at h1
      omega
    unfold joinSlotAt
    rw [if_pos hr]
  · intro s s' hs hs' hsome
    rw [joinRun_slots_getElem?] at hs hs'
    rcases ho : ops[i]? with _ | o
    · rw [ho] at hs
      exact absurd hs (by simp)
    · rw [ho, Option.map_some'] at hs hs'
      have hso : s = joinSlotAt t o := (Option.some.injEq _ _).mp hs.symm
      have hso' : s' = joinSlotAt u o := (Option.some.injEq _ _).mp hs'.symm
      have hr : o.readyAt < t := by
        by_contra hge
        rw [hso] at hsome
        unfold joinSlotAt at hsome
        rw [if_neg hge] at hsome
        exact absurd hsome (by simp)
      rw [hso, hso']
      unfold joinSlotAt
      rw [if_pos hr, if_pos (by omega)]

/-- Witness for C10 at a concrete input. -/
theorem join_len_counts_pending_witness :
    ((joinRun [(⟨1, 10⟩ : Op Nat), ⟨0, 20⟩] 1).len =
      (joinRun [(⟨1, 10⟩ : Op Nat), ⟨0, 20⟩] 1).slots.countP
        fun s => s.state.isPending) ∧
    (⟨⟨0, 20⟩, PollState.consumed, some 20⟩ : JoinSlot Nat) =
      ⟨⟨0, 20⟩, PollState.consumed, some 20⟩ := by
  constructor
  · exact (join_len_counts_pending [⟨1, 10⟩, ⟨0, 20⟩] 1 2 1 (by decide)).1
  · exact (join_len_counts_pending [(⟨1, 10⟩ : Op Nat), ⟨0, 20⟩] 1 2 1
      (by decide)).2.2.2 ⟨⟨0, 20⟩, .consumed, some 20⟩
      ⟨⟨0, 20⟩, .consumed, some 20⟩ (by decide) (by decide) (by decide)

/-- Counterexample to C7: in the join engine a ready operation's slot
moves from pending directly to consumed within a single drive step
(`maybe_poll` calls `set_consumed` on a pending slot); the ready state is
never observed between steps, so the path pending → ready → consumed is not
followed. -/
theorem join_slot_skips_ready :
    ((joinRun [(⟨0, 42⟩ : Op Nat)] 0).slots.map fun s => s.state) =
      [.pending] ∧
    ((joinRun [(⟨0, 42⟩ : Op Nat)] 1).slots.map fun s => s.state) =
      [.consumed] := by
  decide

/-- C7 as amended: in the join engine a slot follows the forward path
pending → consumed directly, never entering the ready state; its storage
is written exactly at that transition (pending slots are uninitialized,
consumed slots hold their operation's value and never change again); and
the storage is read only by the final assembly, which happens only when
every slot is already consumed. -/
theorem join_slot_forward_path (ops : List (Op α)) (t u i : Nat)
    (out : List (Option α)) (hu : t ≤ u) :
    (∀ s ∈ (joinRun ops t).slots, s.state ≠ .ready ∧
      ((s.state = .pending ∧ s.output = none) ∨
        (s.state = .consumed ∧ s.output = some s.op.val))) ∧
    (∀ s s', (joinRun ops t).slots[i]? = some s →
      (joinRun ops u).slots[i]? = some s' → s.state = .consumed → s' = s) ∧
    (joinResultAt ops t = .done out →
      ∀ s ∈ (joinRun ops (t + 1)).slots, s.state = .consumed) := by
  refine ⟨?_, ?_, ?_⟩
  · rw [joinRun_slots]
    intro s hs
    rcases List.mem_map.mp hs with ⟨o, _, rfl⟩
    unfold joinSlotAt
    by_cases h : o.readyAt < t
    · simp [h]
    · simp [h]
  · intro s s' hs hs' hc
    rw [joinRun_slots_getElem?] at hs hs'
    rcases ho : ops[i]? with _ | o
    · rw [ho] at hs
      exact absurd hs (by simp)
    · rw [ho, Option.map_some'] at hs hs'
      have hso : s = joinSlotAt t o := (Option.some.injEq _ _).mp hs.symm
      have hso' : s' = joinSlotAt u o := (Option.some.injEq _ _).mp hs'.symm
      have hr : o.readyAt < t := by
        by_contra hge
        rw [hso] at hc
        unfold joinSlotAt at hc
        rw [if_neg hge] at hc
        exact absurd hc (by simp)
      rw [hso, hso']
      unfold joinSlotAt
      rw [if_pos hr, if_pos (by omega)]
  · intro hdone s hs
    rw [joinResultAt_eq] at hdone
    have hall : ∀ o ∈ ops, o.readyAt ≤ t := by
      by_contra hne
      rw [if_neg hne] at hdone
      exact absurd hdone (by simp)
    rw [joinRun_slots] at hs
    rcases List.mem_map.mp hs with ⟨o, ho, rfl⟩
    unfold joinSlotAt
    rw [if_pos (Nat.lt_succ_of_le (hall o ho))]

/-- Witness for C7's amended form at a concrete input. -/
theorem join_slot_forward_path_witness :
    (⟨⟨0, 42⟩, PollState.consumed, some 42⟩ : JoinSlot Nat).state =
      PollState.consumed :=
  (join_slot_forward_path [(⟨0, 42⟩ : Op Nat)] 0 1 0 [some 42]
    (by decide)).2.2 (by decide) ⟨⟨0, 42⟩, .consumed, some 42⟩ (by decide)

/-! ### Lemmas about the first-ok engine -/

theorem MaybeDone.output_error_ready (m : MaybeDone (Except ε α)) (t : Nat)
    (e : ε) (h : ((m.poll t).1).output = some (.error e)) :
    (m.poll t).2 = true := by
  rcases m with op | v | _
  · simp only [MaybeDone.poll] at h ⊢
    rcases hp : op.poll t with _ | v
    · simp [MaybeDone.output, hp] at h
    · simp [hp]
  · rfl
  · exact absurd h (by simp [MaybeDone.poll, MaybeDone.output])

theorem MaybeDone.errAt_eq_some (m : MaybeDone (Except ε α)) (t : Nat)
    (e : ε) :
    m.errAt t = some e ↔ ((m.poll t).1).output = some (.error e) := by
  unfold MaybeDone.errAt
  rcases ho : ((m.poll t).1).output with _ | v
  · simp
  · rcases v with v | e'
    · simp
    · simp

theorem MaybeDone.errAt_eq_none (m : MaybeDone (Except ε α)) (t : Nat) :
    m.errAt t = none ↔
      ∀ e : ε, ((m.poll t).1).output ≠ some (.error e) := by
  unfold MaybeDone.errAt
  rcases ho : ((m.poll t).1).output with _ | v
  · simp
  · rcases v with v | e'
    · simp
    · simp

theorem firstOkScan_cons_nr (t : Nat) (m : MaybeDone (Except ε α))
    (rest : List (MaybeDone (Except ε α))) (h : (m.poll t).2 = false) :
    firstOkScan t (m :: rest) =
      ((m.poll t).1 :: (firstOkScan t rest).1, false,
        (firstOkScan t rest).2.2) := by
  simp only [firstOkScan, h]
  rfl

theorem firstOkScan_cons_err (t : Nat) (m : MaybeDone (Except ε α))
    (rest : List (MaybeDone (Except ε α))) (e : ε)
    (ho : ((m.poll t).1).output = some (.error e)) :
    firstOkScan t (m :: rest) = (.gone :: rest, true, some e) := by
  simp only [firstOkScan, MaybeDone.output_error_ready m t e ho, if_true, ho]

theorem firstOkScan_cons_ok (t : Nat) (m : MaybeDone (Except ε α))
    (rest : List (MaybeDone (Except ε α))) (h : (m.poll t).2 = true)
    (ho : ∀ e : ε, ((m.poll t).1).output ≠ some (.error e)) :
    firstOkScan t (m :: rest) =
      ((m.poll t).1 :: (firstOkScan t rest).1, (firstOkScan t rest).2.1,
        (firstOkScan t rest).2.2) := by
  simp only [firstOkScan, h, if_true]

theorem firstOkProbes_cons_nr (t : Nat) (m : MaybeDone (Except ε α))
    (rest : List (MaybeDone (Except ε α))) (h : (m.poll t).2 = false) :
    firstOkProbes t (m :: rest) = m.isFuture :: firstOkProbes t rest := by
  simp only [firstOkProbes, h]
  rfl

theorem firstOkProbes_cons_err (t : Nat) (m : MaybeDone (Except ε α))
    (rest : List (MaybeDone (Except ε α))) (e : ε)
    (ho : ((m.poll t).1).output = some (.error e)) :
    firstOkProbes t (m :: rest) =
      m.isFuture :: rest.map fun _ => false := by
  simp only [firstOkProbes, MaybeDone.output_error_ready m t e ho, if_true,
    ho]

theorem firstOkProbes_cons_ok (t : Nat) (m : MaybeDone (Except ε α))
    (rest : List (MaybeDone (Except ε α))) (h : (m.poll t).2 = true)
    (ho : ∀ e : ε, ((m.poll t).1).output ≠ some (.error e)) :
    firstOkProbes t (m :: rest) = m.isFuture :: firstOkProbes t rest := by
  simp only [firstOkProbes, h, if_true]

/-- The early error the scan returns is the first error observed in index
order. -/
theorem firstOkScan_err_eq (t : Nat)
    (es : List (MaybeDone (Except ε α))) :
    (firstOkScan t es).2.2 = firstOkFirstErr t es := by
  induction es with
  | nil => rfl
  | cons m rest ih =>
    unfold firstOkFirstErr
    rcases he : m.errAt t with _ | e
    · rcases hr : (m.poll t).2 with _ | _
      · rw [firstOkScan_cons_nr t m rest hr, ih]
      · rw [firstOkScan_cons_ok t m rest hr
          ((MaybeDone.errAt_eq_none m t).mp he), ih]
    · rw [firstOkScan_cons_err t m rest e
        ((MaybeDone.errAt_eq_some m t e).mp he)]

/-- When no element's poll is observed failing, the scan polls every
element in place and `all_done` reports whether every poll was ready. -/
theorem firstOkScan_no_err (t : Nat) (es : List (MaybeDone (Except ε α)))
    (h : ∀ m ∈ es, m.errAt t = none) :
    firstOkScan t es =
      (es.map fun m => (m.poll t).1, es.all fun m => (m.poll t).2, none) := by
  induction es with
  | nil => rfl
  | cons m rest ih =>
    have hm := h m (List.mem_cons_self m rest)
    have hrest := ih fun m' hm' => h m' (List.mem_cons_of_mem m hm')
    rcases hr : (m.poll t).2 with _ | _
    · rw [firstOkScan_cons_nr t m rest hr, hrest]
      simp [List.all_cons, hr]
    · rw [firstOkScan_cons_ok t m rest hr
        ((MaybeDone.errAt_eq_none m t).mp hm), hrest]
      simp [List.all_cons, hr]

theorem firstOkScan_fst_length (t : Nat)
    (es : List (MaybeDone (Except ε α))) :
    (firstOkScan t es).1.length = es.length := by
  induction es with
  | nil => rfl
  | cons m rest ih =>
    rcases he : m.errAt t with _ | e
    · rcases hr : (m.poll t).2 with _ | _
      · rw [firstOkScan_cons_nr t m rest hr]
        simp [ih]
      · rw [firstOkScan_cons_ok t m rest hr
          ((MaybeDone.errAt_eq_none m t).mp he)]
        simp [ih]
    · rw [firstOkScan_cons_err t m rest e
        ((MaybeDone.errAt_eq_some m t e).mp he)]
      simp

/-- When the first failure observed in scan order sits after the prefix
`es₁`, the scan stops there: the prefix is polled in place, the failing
slot is taken, and the suffix is returned untouched. -/
theorem firstOkScan_append_err (t : Nat)
    (es₁ es₂ : List (MaybeDone (Except ε α)))
    (m : MaybeDone (Except ε α)) (e : ε)
    (h₁ : ∀ m' ∈ es₁, m'.errAt t = none) (hm : m.errAt t = some e) :
    (firstOkScan t (es₁ ++ m :: es₂)).1 =
      (es₁.map fun m' => (m'.poll t).1) ++ .gone :: es₂ ∧
    (firstOkScan t (es₁ ++ m :: es₂)).2.2 = some e := by
  induction es₁ with
  | nil =>
    rw [List.nil_append,
      firstOkScan_cons_err t m es₂ e ((MaybeDone.errAt_eq_some m t e).mp hm)]
    exact ⟨by simp, rfl⟩
  | cons m' rest ih =>
    have hm' := h₁ m' (List.mem_cons_self m' rest)
    have hrest := ih fun x hx => h₁ x (List.mem_cons_of_mem m' hx)
    rw [List.cons_append]
    rcases hr : (m'.poll t).2 with _ | _
    · rw [firstOkScan_cons_nr t m' (rest ++ m :: es₂) hr]
      refine ⟨?_, hrest.2⟩
      simp only [List.map_cons, List.cons_append]
      rw [hrest.1]
    · rw [firstOkScan_cons_ok t m' (rest ++ m :: es₂) hr
        ((MaybeDone.errAt_eq_none m' t).mp hm')]
      refine ⟨?_, hrest.2⟩
      simp only [List.map_cons, List.cons_append]
      rw [hrest.1]

/-- With the first failure observed after the prefix `es₁`, the loop
probes the still-pending prefix operations and the failing one, and none
of the operations after it. -/
theorem firstOkProbes_append_err (t : Nat)
    (es₁ es₂ : List (MaybeDone (Except ε α)))
    (m : MaybeDone (Except ε α)) (e : ε)
    (h₁ : ∀ m' ∈ es₁, m'.errAt t = none) (hm : m.errAt t = some e) :
    firstOkProbes t (es₁ ++ m :: es₂) =
      es₁.map MaybeDone.isFuture ++
        m.isFuture :: es₂.map fun _ => false := by
  induction es₁ with
  | nil =>
    rw [List.nil_append,
      firstOkProbes_cons_err t m es₂ e
        ((MaybeDone.errAt_eq_some m t e).mp hm)]
    simp
  | cons m' rest ih =>
    have hm' := h₁ m' (List.mem_cons_self m' rest)
    have hrest := ih fun x hx => h₁ x (List.mem_cons_of_mem m' hx)
    rw [List.cons_append]
    rcases hr : (m'.poll t).2 with _ | _
    · rw [firstOkProbes_cons_nr t m' (rest ++ m :: es₂) hr]
      simp only [List.map_cons, List.cons_append]
      rw [hrest]
    · rw [firstOkProbes_cons_ok t m' (rest ++ m :: es₂) hr
        ((MaybeDone.errAt_eq_none m' t).mp hm')]
      simp only [List.map_cons, List.cons_append]
      rw [hrest]

theorem firstOkStep_err (t : Nat) (es : List (MaybeDone (Except ε α)))
    (e : ε) (h : (firstOkScan t es).2.2 = some e) :
    firstOkStep t es = (.err e, (firstOkScan t es).1) := by
  simp only [firstOkStep, h]

theorem firstOkStep_all_done (t : Nat)
    (es : List (MaybeDone (Except ε α)))
    (h : (firstOkScan t es).2.2 = none)
    (ha : (firstOkScan t es).2.1 = true) :
    firstOkStep t es =
      (.ok ((firstOkScan t es).1.filterMap MaybeDone.okValue),
        (firstOkScan t es).1.map fun _ => .gone) := by
  simp only [firstOkStep, h, ha, if_true]

theorem firstOkStep_still_pending (t : Nat)
    (es : List (MaybeDone (Except ε α)))
    (h : (firstOkScan t es).2.2 = none)
    (ha : (firstOkScan t es).2.1 = false) :
    firstOkStep t es = (.pending, (firstOkScan t es).1) := by
  simp only [firstOkStep, h, ha]
  rfl

/-- Counterexample to C1: an operation that succeeds on the very first
drive step does not make the engine return.  `FirstOk::poll` only returns
early on an observed `Err`; with the first operation succeeding at step 0
and the second still pending, the engine stays pending through step 4 and
completes only at step 5, when the second operation also finishes,
returning the array of both success values. -/
theorem firstOk_success_no_early_return :
    firstOkResultAt [MaybeDone.future ⟨0, Except.ok 1⟩,
      MaybeDone.future ⟨5, (Except.ok 2 : Except Nat Nat)⟩] 0 =
        .pending ∧
    firstOkResultAt [MaybeDone.future ⟨0, Except.ok 1⟩,
      MaybeDone.future ⟨5, (Except.ok 2 : Except Nat Nat)⟩] 4 =
        .pending ∧
    firstOkResultAt [MaybeDone.future ⟨0, Except.ok 1⟩,
      MaybeDone.future ⟨5, (Except.ok 2 : Except Nat Nat)⟩] 5 =
        .ok [1, 2] := by
  decide

/-- C1 as amended: the engine returns as soon as some operation is
observed to fail, returning the first-observed failure and abandoning all
remaining operations — the elements after the failing one are returned
untouched and their operations are not probed during the returning
step. -/
theorem firstOk_first_error_wins (t : Nat)
    (es₁ es₂ : List (MaybeDone (Except ε α)))
    (m : MaybeDone (Except ε α)) (e : ε)
    (h₁ : ∀ m' ∈ es₁, m'.errAt t = none) (hm : m.errAt t = some e) :
    (firstOkStep t (es₁ ++ m :: es₂)).1 = .err e ∧
    (firstOkStep t (es₁ ++ m :: es₂)).2 =
      (es₁.map fun m' => (m'.poll t).1) ++ .gone :: es₂ ∧
    firstOkProbes t (es₁ ++ m :: es₂) =
      es₁.map MaybeDone.isFuture ++
        m.isFuture :: es₂.map fun _ => false := by
  have hs := firstOkScan_append_err t es₁ es₂ m e h₁ hm
  rw [firstOkStep_err t (es₁ ++ m :: es₂) e hs.2]
  exact ⟨rfl, hs.1, firstOkProbes_append_err t es₁ es₂ m e h₁ hm⟩

/-- Witness for C1's amended form at a concrete input. -/
theorem firstOk_first_error_wins_witness :
    (firstOkStep 1 [MaybeDone.future ⟨3, Except.ok 1⟩,
      MaybeDone.future ⟨1, (Except.error 7 : Except Nat Nat)⟩,
      MaybeDone.future ⟨9, Except.ok 2⟩]).1 = .err 7 ∧
    (firstOkStep 1 [MaybeDone.future ⟨3, Except.ok 1⟩,
      MaybeDone.future ⟨1, (Except.error 7 : Except Nat Nat)⟩,
      MaybeDone.future ⟨9, Except.ok 2⟩]).2 =
      [MaybeDone.future ⟨3, Except.ok 1⟩, MaybeDone.gone,
        MaybeDone.future ⟨9, Except.ok 2⟩] ∧
    firstOkProbes 1 [MaybeDone.future ⟨3, Except.ok 1⟩,
      MaybeDone.future ⟨1, (Except.error 7 : Except Nat Nat)⟩,
      MaybeDone.future ⟨9, Except.ok 2⟩] = [true, true, false] := by
  have h := firstOk_first_error_wins 1 [MaybeDone.future ⟨3, Except.ok 1⟩]
    [MaybeDone.future ⟨9, Except.ok 2⟩]
    (MaybeDone.future ⟨1, (Except.error 7 : Except Nat Nat)⟩) 7
    (by decide) (by decide)
  exact ⟨h.1, h.2.1, h.2.2⟩

/-- Counterexample to C2: with three operations failing with errors 1, 2,
3 resolved in that order, the engine returns error 1 — the first observed
failure — not error 3. -/
theorem firstOk_not_last_error :
    firstOkResultAt [MaybeDone.future ⟨0, (Except.error 1 : Except Nat Nat)⟩,
      MaybeDone.future ⟨1, Except.error 2⟩,
      MaybeDone.future ⟨2, Except.error 3⟩] 0 = .err 1 ∧
    (FirstOkPoll.err 1 : FirstOkPoll Nat Nat) ≠ .err 3 := by
  decide

/-- C2 as amended: for all-failing operations the engine surfaces the
first-observed failure — with errors `e₁`, `e₂`, `e₃` resolving at steps
0, 1, 2 the first drive step already returns `e₁`. -/
theorem firstOk_first_observed_error (e₁ e₂ e₃ : ε) :
    firstOkResultAt
      ([MaybeDone.future ⟨0, .error e₁⟩, MaybeDone.future ⟨1, .error e₂⟩,
        MaybeDone.future ⟨2, .error e₃⟩] :
        List (MaybeDone (Except ε α))) 0 = .err e₁ :=
  rfl

/-- Counterexample to C5: the first-ok engine over zero operations
completes successfully with the empty array on the first drive step — it
does not report any error. -/
theorem firstOk_empty_ok_concrete :
    firstOkResultAt ([] : List (MaybeDone (Except Nat Nat))) 0 =
      .ok [] := by
  decide

/-- C5 as amended: over zero operations the first drive step returns
`Ok` of the empty array (the `all_done` flag is vacuously true and no
failure can ever be observed). -/
theorem firstOk_empty_ok (ε α : Type) :
    firstOkResultAt ([] : List (MaybeDone (Except ε α))) 0 = .ok [] :=
  rfl

/-! ### The all-success run of the first-ok engine -/

theorem okStateAt_zero (rs : List (Nat × α)) :
    okStateAt (ε := ε) rs 0 = okInit rs := by
  unfold okStateAt okInit
  apply List.map_congr_left
  intro p _
  simp

theorem errAt_future_ok (t r : Nat) (v : α) :
    (MaybeDone.future ⟨r, Except.ok v⟩ :
      MaybeDone (Except ε α)).errAt t = none := by
  unfold MaybeDone.errAt MaybeDone.poll Op.poll
  by_cases h : r ≤ t
  · simp [h, MaybeDone.output]
  · simp [h, MaybeDone.output]

theorem errAt_done_ok (t : Nat) (v : α) :
    (MaybeDone.done (Except.ok v) :
      MaybeDone (Except ε α)).errAt t = none :=
  rfl

theorem okStateAt_errAt (rs : List (Nat × α)) (s t : Nat) :
    ∀ m ∈ okStateAt (ε := ε) rs s, m.errAt t = none := by
  intro m hm
  rcases List.mem_map.mp hm with ⟨p, _, rfl⟩
  by_cases hp : p.1 < s
  · rw [if_pos hp]
    exact errAt_done_ok t p.2
  · rw [if_neg hp]
    exact errAt_future_ok t p.1 p.2

theorem all_poll_okStateAt (rs : List (Nat × α)) (s t : Nat)
    (h : s ≤ t + 1) :
    ((okStateAt (ε := ε) rs s).all fun m => (m.poll t).2) =
      rs.all fun p => decide (p.1 ≤ t) := by
  induction rs with
  | nil => rfl
  | cons p rest ih =>
    show ((if p.1 < s then _ else _) :: okStateAt rest s).all _ = _
    rw [List.all_cons, List.all_cons, ih]
    by_cases hp : p.1 < s
    · rw [if_pos hp]
      have hle : p.1 ≤ t := by omega
      simp [MaybeDone.poll, hle]
    · rw [if_neg hp]
      by_cases ht : p.1 ≤ t
      · simp [MaybeDone.poll, Op.poll, ht]
      · simp [MaybeDone.poll, Op.poll, ht]

theorem map_poll_okStateAt (rs : List (Nat × α)) (s t : Nat)
    (h : s ≤ t + 1) :
    ((okStateAt (ε := ε) rs s).map fun m => (m.poll t).1) =
      okStateAt rs (t + 1) := by
  unfold okStateAt
  rw [List.map_map]
  apply List.map_congr_left
  intro p _
  by_cases hp : p.1 < s
  · have hlt : p.1 < t + 1 := by omega
    simp [hp, hlt, MaybeDone.poll]
  · by_cases ht : p.1 ≤ t
    · have hlt : p.1 < t + 1 := by omega
      simp [hp, hlt, MaybeDone.poll, Op.poll, ht]
    · have hlt : ¬ p.1 < t + 1 := by omega
      simp [hp, hlt, MaybeDone.poll, Op.poll, ht]

theorem filterMap_okValue_okStateAt (rs : List (Nat × α)) (s : Nat)
    (h : ∀ p ∈ rs, p.1 < s) :
    (okStateAt (ε := ε) rs s).filterMap MaybeDone.okValue =
      rs.map Prod.snd := by
  induction rs with
  | nil => rfl
  | cons p rest ih =>
    have hp := h p (List.mem_cons_self p rest)
    have hrest := ih fun x hx => h x (List.mem_cons_of_mem p hx)
    show List.filterMap _ ((if p.1 < s then _ else _) :: okStateAt rest s) = _
    rw [if_pos hp, List.filterMap_cons, List.map_cons, ← hrest]
    rfl

theorem maxReady_le (rs : List (Nat × α)) (v : Nat) :
    maxReady rs ≤ v ↔ ∀ p ∈ rs, p.1 ≤ v := by
  induction rs with
  | nil => simp [maxReady]
  | cons p rest ih =>
    show max p.1 (maxReady rest) ≤ v ↔ _
    rw [Nat.max_le, ih]
    simp

/-- The element state of an all-success run: every operation ready before
the current step (capped at the completion step, after which the engine
freezes) is done, the rest untouched. -/
theorem firstOkElems_okInit (rs : List (Nat × α)) (t : Nat) :
    firstOkElems (okInit (ε := ε) rs) t =
      okStateAt rs (min t (maxReady rs)) := by
  induction t with
  | zero =>
    rw [Nat.zero_min, okStateAt_zero]
    rfl
  | succ t ih =>
    show (let cur := firstOkElems (okInit rs) t
          let s := firstOkStep t cur
          if (s.1).isPending then s.2 else cur) = _
    simp only [ih]
    have hmin : min t (maxReady rs) ≤ t + 1 := by omega
    have hscan := firstOkScan_no_err t
      (okStateAt (ε := ε) rs (min t (maxReady rs)))
      (okStateAt_errAt rs (min t (maxReady rs)) t)
    by_cases hu : maxReady rs ≤ t
    · have hall : ((okStateAt (ε := ε) rs (min t (maxReady rs))).all
          fun m => (m.poll t).2) = true := by
        rw [all_poll_okStateAt rs _ t hmin, List.all_eq_true]
        intro p hp
        exact decide_eq_true (Nat.le_trans ((maxReady_le rs t).mp hu p hp)
          (Nat.le_refl t))
      have hstep := firstOkStep_all_done t
        (okStateAt rs (min t (maxReady rs)))
        (by rw [hscan]) (by rw [hscan]; exact hall)
      rw [hstep]
      rw [if_neg (by simp [FirstOkPoll.isPending])]
      congr 1
      omega
    · have hall : ((okStateAt (ε := ε) rs (min t (maxReady rs))).all
          fun m => (m.poll t).2) = false := by
        rw [all_poll_okStateAt rs _ t hmin]
        rw [← Bool.not_eq_true, List.all_eq_true]
        intro hcontra
        exact hu ((maxReady_le rs t).mpr fun p hp =>
          of_decide_eq_true (hcontra p hp))
      have hstep := firstOkStep_still_pending t
        (okStateAt rs (min t (maxReady rs)))
        (by rw [hscan]) (by rw [hscan]; exact hall)
      rw [hstep]
      have hc : (((FirstOkPoll.pending : FirstOkPoll α ε),
          (firstOkScan t (okStateAt (ε := ε) rs (min t (maxReady rs)))).1).1).isPending = true := rfl
      rw [if_pos hc]
      rw [hscan]
      show ((okStateAt rs (min t (maxReady rs))).map fun m => (m.poll t).1) = _
      rw [map_poll_okStateAt rs _ t hmin]
      congr 1
      omega

/-- The result of an all-success run at step `t`: done with every success
value in input order once all operations are ready, pending before. -/
theorem firstOkResultAt_okInit (rs : List (Nat × α)) (t : Nat) :
    firstOkResultAt (okInit (ε := ε) rs) t =
      if ∀ p ∈ rs, p.1 ≤ t then .ok (rs.map Prod.snd) else .pending := by
  show (firstOkStep t (firstOkElems (okInit rs) t)).1 = _
  rw [firstOkElems_okInit]
  have hmin : min t (maxReady rs) ≤ t + 1 := by omega
  have hscan := firstOkScan_no_err t
    (okStateAt (ε := ε) rs (min t (maxReady rs)))
    (okStateAt_errAt rs (min t (maxReady rs)) t)
  by_cases hall : ∀ p ∈ rs, p.1 ≤ t
  · have hballe : ((okStateAt (ε := ε) rs (min t (maxReady rs))).all
        fun m => (m.poll t).2) = true := by
      rw [all_poll_okStateAt rs _ t hmin, List.all_eq_true]
      intro p hp
      exact decide_eq_true (hall p hp)
    rw [firstOkStep_all_done t _ (by rw [hscan]) (by rw [hscan]; exact hballe),
      if_pos hall]
    have h1 : (firstOkScan t (okStateAt (ε := ε) rs (min t (maxReady rs)))).1 =
        okStateAt rs (t + 1) := by
      rw [hscan]
      exact map_poll_okStateAt rs _ t hmin
    rw [h1, filterMap_okValue_okStateAt rs (t + 1)
      fun p hp => Nat.lt_succ_of_le (hall p hp)]
  · have hballe : ((okStateAt (ε := ε) rs (min t (maxReady rs))).all
        fun m => (m.poll t).2) = false := by
      rw [all_poll_okStateAt rs _ t hmin, ← Bool.not_eq_true,
        List.all_eq_true]
      intro hcontra
      exact hall fun p hp => of_decide_eq_true (hcontra p hp)
    rw [firstOkStep_still_pending t _ (by rw [hscan])
      (by rw [hscan]; exact hballe), if_neg hall]

/-- C9: when every operation succeeds, the first-ok engine completes only
once all of them have completed, returning `Ok` of the array of every
success value in input order — not a single first success. -/
theorem firstOk_all_ok_input_order (ε α : Type) (rs : List (Nat × α))
    (t : Nat) :
    ((∀ p ∈ rs, p.1 ≤ t) →
      firstOkResultAt (okInit (ε := ε) rs) t = .ok (rs.map Prod.snd)) ∧
    ((∃ p ∈ rs, t < p.1) →
      firstOkResultAt (okInit (ε := ε) rs) t = .pending) := by
  constructor
  · intro hall
    rw [firstOkResultAt_okInit, if_pos hall]
  · intro hex
    rw [firstOkResultAt_okInit, if_neg ?_]
    rcases hex with ⟨p, hp, hlt⟩
    intro hall
    exact absurd (hall p hp) (by omega)

/-- Witness for C9 at a concrete input: both operations succeeding, the
engine is pending while one is unfinished and returns both values in
input order once all are done. -/
theorem firstOk_all_ok_input_order_witness :
    firstOkResultAt (okInit (ε := Nat) [(0, 1), (2, 5)]) 2 =
      .ok [1, 5] ∧
    firstOkResultAt (okInit (ε := Nat) [(0, 1), (2, 5)]) 1 = .pending := by
  constructor
  · exact (firstOk_all_ok_input_order Nat Nat [(0, 1), (2, 5)] 2).1
      (by decide)
  · exact (firstOk_all_ok_input_order Nat Nat [(0, 1), (2, 5)] 1).2
      ⟨(2, 5), by decide, by decide⟩

/-! ### Completed elements are never probed again -/

theorem MaybeDone.poll_nonfuture_fst (m : MaybeDone α) (t : Nat)
    (h : m.isFuture = false) : (m.poll t).1 = m := by
  rcases m with op | v | _
  · exact absurd h (by simp [MaybeDone.isFuture])
  · rfl
  · rfl

/-- The scan never revives an element: one that no longer holds its
operation still does not after being polled in place, taken, or left
untouched. -/
theorem firstOkScan_preserves_nonfuture (t : Nat)
    (es : List (MaybeDone (Except ε α))) (i : Nat)
    (m : MaybeDone (Except ε α)) (hm : es[i]? = some m)
    (hf : m.isFuture = false) :
    ∃ m', (firstOkScan t es).1[i]? = some m' ∧ m'.isFuture = false := by
  induction es generalizing i with
  | nil => exact absurd hm (by simp)
  | cons m₀ rest ih =>
    rcases i with _ | i
    · have hm0 : m₀ = m := by simpa using hm
      subst hm0
      rcases he : m₀.errAt t with _ | e
      · rcases hr : (m₀.poll t).2 with _ | _
        · rw [firstOkScan_cons_nr t m₀ rest hr]
          exact ⟨(m₀.poll t).1, by simp,
            by rw [MaybeDone.poll_nonfuture_fst m₀ t hf]; exact hf⟩
        · rw [firstOkScan_cons_ok t m₀ rest hr
            ((MaybeDone.errAt_eq_none m₀ t).mp he)]
          exact ⟨(m₀.poll t).1, by simp,
            by rw [MaybeDone.poll_nonfuture_fst m₀ t hf]; exact hf⟩
      · rw [firstOkScan_cons_err t m₀ rest e
          ((MaybeDone.errAt_eq_some m₀ t e).mp he)]
        exact ⟨.gone, by simp, rfl⟩
    · have hmr : rest[i]? = some m := by simpa using hm
      rcases he : m₀.errAt t with _ | e
      · rcases hr : (m₀.poll t).2 with _ | _
        · rw [firstOkScan_cons_nr t m₀ rest hr]
          simpa using ih i hmr
        · rw [firstOkScan_cons_ok t m₀ rest hr
            ((MaybeDone.errAt_eq_none m₀ t).mp he)]
          simpa using ih i hmr
      · rw [firstOkScan_cons_err t m₀ rest e
          ((MaybeDone.errAt_eq_some m₀ t e).mp he)]
        exact ⟨m, by simpa using hmr, hf⟩

theorem firstOkStep_snd_of_pending (t : Nat)
    (es : List (MaybeDone (Except ε α)))
    (h : ((firstOkStep t es).1).isPending = true) :
    (firstOkStep t es).2 = (firstOkScan t es).1 := by
  rcases hse : (firstOkScan t es).2.2 with _ | e
  · rcases hsa : (firstOkScan t es).2.1 with _ | _
    · rw [firstOkStep_still_pending t es hse hsa]
    · rw [firstOkStep_all_done t es hse hsa] at h
      exact absurd h (by simp [FirstOkPoll.isPending])
  · rw [firstOkStep_err t es e hse] at h
    exact absurd h (by simp [FirstOkPoll.isPending])

theorem firstOkElems_succ (elems : List (MaybeDone (Except ε α)))
    (t : Nat) :
    firstOkElems elems (t + 1) =
      if ((firstOkStep t (firstOkElems elems t)).1).isPending = true then
        (firstOkStep t (firstOkElems elems t)).2
      else
        firstOkElems elems t :=
  rfl

/-- An element that has completed (or been consumed) by step `t` stays so
at every later step of the run. -/
theorem firstOkElems_nonfuture_mono
    (elems : List (MaybeDone (Except ε α))) (t u i : Nat)
    (m : MaybeDone (Except ε α)) (hu : t ≤ u)
    (hm : (firstOkElems elems t)[i]? = some m)
    (hf : m.isFuture = false) :
    ∃ m', (firstOkElems elems u)[i]? = some m' ∧ m'.isFuture = false := by
  induction u, hu using Nat.le_induction with
  | base => exact ⟨m, hm, hf⟩
  | succ u hu ih =>
    rcases ih with ⟨m', hm', hf'⟩
    rw [firstOkElems_succ]
    by_cases hp : ((firstOkStep u (firstOkElems elems u)).1).isPending = true
    · rw [if_pos hp, firstOkStep_snd_of_pending u _ hp]
      exact firstOkScan_preserves_nonfuture u _ i m' hm' hf'
    · rw [if_neg hp]
      exact ⟨m', hm', hf'⟩

/-- The element loop only probes elements that still hold their
operation. -/
theorem firstOkProbes_nonfuture (t : Nat)
    (es : List (MaybeDone (Except ε α))) (i : Nat)
    (m : MaybeDone (Except ε α)) (hm : es[i]? = some m)
    (hf : m.isFuture = false) :
    (firstOkProbes t es)[i]? = some false := by
  induction es generalizing i with
  | nil => exact absurd hm (by simp)
  | cons m₀ rest ih =>
    rcases i with _ | i
    · have hm0 : m₀ = m := by simpa using hm
      subst hm0
      rcases he : m₀.errAt t with _ | e
      · rcases hr : (m₀.poll t).2 with _ | _
        · rw [firstOkProbes_cons_nr t m₀ rest hr]
          simpa using hf
        · rw [firstOkProbes_cons_ok t m₀ rest hr
            ((MaybeDone.errAt_eq_none m₀ t).mp he)]
          simpa using hf
      · rw [firstOkProbes_cons_err t m₀ rest e
          ((MaybeDone.errAt_eq_some m₀ t e).mp he)]
        simpa using hf
    · have hmr : rest[i]? = some m := by simpa using hm
      rcases he : m₀.errAt t with _ | e
      · rcases hr : (m₀.poll t).2 with _ | _
        · rw [firstOkProbes_cons_nr t m₀ rest hr]
          simpa using ih i hmr
        · rw [firstOkProbes_cons_ok t m₀ rest hr
            ((MaybeDone.errAt_eq_none m₀ t).mp he)]
          simpa using ih i hmr
      · rw [firstOkProbes_cons_err t m₀ rest e
          ((MaybeDone.errAt_eq_some m₀ t e).mp he)]
        rw [List.getElem?_cons_succ, List.getElem?_map, hmr]
        rfl

/-- C8: in both engines, once a slot has reached its terminal state its
operation is never probed again on any later drive step: in the join
engine `maybe_poll`'s guard skips consumed slots, and in the first-ok
engine completed elements are polled without touching the operation and a
returned engine is not polled at all. -/
theorem consumed_never_reprobed (α ε : Type) :
    (∀ (ops : List (Op α)) (t u i : Nat) (s : JoinSlot α), t ≤ u →
      (joinRun ops t).slots[i]? = some s → s.state = .consumed →
      (joinProbesAt ops u)[i]? = some false) ∧
    (∀ (elems : List (MaybeDone (Except ε α))) (t u i : Nat)
      (m : MaybeDone (Except ε α)), t ≤ u →
      (firstOkElems elems t)[i]? = some m → m.isFuture = false →
      (firstOkProbesAt elems u)[i]? = some false) := by
  constructor
  · intro ops t u i s hu hs hc
    exact join_consumed_not_reprobed ops t u i s hu hs hc
  · intro elems t u i m hu hm hf
    rcases firstOkElems_nonfuture_mono elems t u i m hu hm hf with
      ⟨m', hm', hf'⟩
    unfold firstOkProbesAt
    by_cases hd : firstOkDoneBefore elems u = true
    · rw [if_pos hd, List.getElem?_map, hm']
      rfl
    · rw [if_neg hd]
      exact firstOkProbes_nonfuture u _ i m' hm' hf'

/-- Witness for C8 at concrete inputs for both engines. -/
theorem consumed_never_reprobed_witness :
    (joinProbesAt [(⟨0, 1⟩ : Op Nat)] 2)[0]? = some false ∧
    (firstOkProbesAt [MaybeDone.done (Except.ok 5),
      MaybeDone.future ⟨9, (Except.ok 2 : Except Nat Nat)⟩] 1)[0]? =
      some false := by
  constructor
  · exact (consumed_never_reprobed Nat Nat).1 [⟨0, 1⟩] 1 2 0
      ⟨⟨0, 1⟩, .consumed, some 1⟩ (by decide) (by decide) (by decide)
  · exact (consumed_never_reprobed Nat Nat).2
      [.done (.ok 5), .future ⟨9, .ok 2⟩] 0 1 0 (.done (.ok 5))
      (by decide) rfl rfl

/-! ### The stream driver -/

theorem drive_cons_progress (prog : σ → σ) (send : σ → α → σ)
    (fin : σ → β) (ds : List Bool) (items : List α) (s : σ) :
    drive prog send fin (true :: ds) items s =
      ((drive prog send fin ds items (prog s)).1,
        .progress :: (drive prog send fin ds items (prog s)).2) :=
  rfl

theorem drive_cons_exhausted (prog : σ → σ) (send : σ → α → σ)
    (fin : σ → β) (ds : List Bool) (s : σ) :
    drive prog send fin (false :: ds) [] s = (some (fin s), [.finish]) :=
  rfl

theorem drive_cons_send (prog : σ → σ) (send : σ → α → σ)
    (fin : σ → β) (ds : List Bool) (x : α) (xs : List α) (s : σ) :
    drive prog send fin (false :: ds) (x :: xs) s =
      ((drive prog send fin ds xs (send s x)).1,
        .send x :: (drive prog send fin ds xs (send s x)).2) :=
  rfl

/-- Any completing run of the drive loop over the unbounded recording
consumer: the consumer receives exactly the source's items in order, then
one final finish, and the returned value is the consumer's aggregation of
everything admitted so far. -/
theorem drive_sends_then_finishes_aux (f : List α → β) (ds : List Bool) :
    ∀ (items s : List α) (out : β) (tr : List (DriveEvent α)),
      drive id (fun acc x => acc ++ [x]) f ds items s = (some out, tr) →
      tr.filterMap DriveEvent.sent = items ∧
      (∃ tr', tr = tr' ++ [.finish] ∧ DriveEvent.finish ∉ tr') ∧
      out = f (s ++ items) := by
  induction ds with
  | nil =>
    intro items s out tr h
    exact absurd h (by simp [drive])
  | cons d ds ih =>
    intro items s out tr h
    rcases d with _ | _
    · rcases items with _ | ⟨x, xs⟩
      · rw [drive_cons_exhausted] at h
        have h1 : some (f s) = some out := congrArg Prod.fst h
        have h2 : ([.finish] : List (DriveEvent α)) = tr :=
          congrArg Prod.snd h
        have hout : out = f s := ((Option.some.injEq _ _).mp h1).symm
        subst hout
        rw [← h2]
        refine ⟨by simp [DriveEvent.sent], ⟨[], by simp, by simp⟩, ?_⟩
        rw [List.append_nil]
      · rw [drive_cons_send] at h
        have h1 : (drive id (fun acc x => acc ++ [x]) f ds xs
            (s ++ [x])).1 = some out := congrArg Prod.fst h
        have h2 : DriveEvent.send x ::
            (drive id (fun acc x => acc ++ [x]) f ds xs (s ++ [x])).2 =
              tr := congrArg Prod.snd h
        have hpair : drive id (fun acc x => acc ++ [x]) f ds xs
            (s ++ [x]) = (some out,
              (drive id (fun acc x => acc ++ [x]) f ds xs (s ++ [x])).2) :=
          Prod.ext h1 rfl
        rcases ih xs (s ++ [x]) out _ hpair with ⟨ih1, ⟨tr', htr', hnf⟩, ih3⟩
        rw [← h2]
        refine ⟨?_, ⟨.send x :: tr', ?_, ?_⟩, ?_⟩
        · rw [List.filterMap_cons]
          show x :: List.filterMap _ _ = x :: xs
          rw [ih1]
        · rw [htr', List.cons_append]
        · intro hmem
          rcases List.mem_cons.mp hmem with hh | hh
          · exact absurd hh (by simp)
          · exact hnf hh
        · rw [ih3, List.append_assoc, List.singleton_append]
    · rw [drive_cons_progress] at h
      simp only [id_eq] at h
      have h1 : (drive id (fun acc x => acc ++ [x]) f ds items
          s).1 = some out := congrArg Prod.fst h
      have h2 : DriveEvent.progress ::
          (drive id (fun acc x => acc ++ [x]) f ds items s).2 = tr :=
        congrArg Prod.snd h
      have hpair : drive id (fun acc x => acc ++ [x]) f ds items s =
          (some out,
            (drive id (fun acc x => acc ++ [x]) f ds items s).2) :=
        Prod.ext h1 rfl
      rcases ih items s out _ hpair with ⟨ih1, ⟨tr', htr', hnf⟩, ih3⟩
      rw [← h2]
      refine ⟨?_, ⟨.progress :: tr', ?_, ?_⟩, ih3⟩
      · rw [List.filterMap_cons]
        show List.filterMap _ _ = items
        exact ih1
      · show DriveEvent.progress :: _ = _
        rw [htr', List.cons_append]
      · intro hmem
        rcases List.mem_cons.mp hmem with hh | hh
        · exact absurd hh (by simp)
        · exact hnf hh

/-- C4: every completing run of `FromStream::drive` over a finite source
of `k` items and an unbounded consumer submits exactly those `k` items to
the consumer in order, follows them with exactly one finish call (the
trace ends with the single finish event), and returns the consumer's own
cumulative output. -/
theorem drive_sends_then_finishes (f : List α → β) (ds : List Bool)
    (items : List α) (out : β) (tr : List (DriveEvent α))
    (h : driveFold f ds items = (some out, tr)) :
    tr.filterMap DriveEvent.sent = items ∧
    (∃ tr', tr = tr' ++ [.finish] ∧ DriveEvent.finish ∉ tr') ∧
    out = f items := by
  have haux := drive_sends_then_finishes_aux f ds items [] out tr h
  rw [List.nil_append] at haux
  exact haux

/-- Witness for C4 at a concrete input: three items, one interleaved
progress round, then the finish. -/
theorem drive_sends_then_finishes_witness :
    ([DriveEvent.progress, .send 1, .send 2, .send 3,
      (.finish : DriveEvent Nat)].filterMap DriveEvent.sent =
        [1, 2, 3]) ∧
    (∃ tr', [DriveEvent.progress, .send 1, .send 2, .send 3,
      (.finish : DriveEvent Nat)] = tr' ++ [.finish] ∧
        DriveEvent.finish ∉ tr') ∧
    (3 = (fun l : List Nat => l.length) [1, 2, 3]) :=
  drive_sends_then_finishes (fun l => l.length)
    [true, false, false, false, false] [1, 2, 3] 3
    [.progress, .send 1, .send 2, .send 3, .finish] (by decide)

end FuturesConcurrency




